import Mathlib

/-!
Verification of the passifier secret store.

The store tree (src/lib/nested_map/src/lib.rs, src/src/store.rs) is a
`NestedMap<String, Entry>`: a hash map from string keys to nodes, where a
node is either a terminal `Entry` (a leaf) or a further nested map (a
branch).  A Rust `HashMap` has unique keys and no meaningful order; it is
embedded here as an association list, and the well-formedness predicate
`NestedMap.wfb` states the unique-keys invariant that every value of the
Rust type satisfies by construction.
-/

/-- `Entry` from src/src/store.rs: the value type of the secret store,
either a plain string or a binary blob (bytes are embedded as `Nat`). -/
inductive Entry where
  | string : String → Entry
  | binary : List Nat → Entry
deriving DecidableEq

mutual

/-- `Node` from src/lib/nested_map/src/lib.rs: a leaf value or a sub map. -/
inductive Node where
  | leaf : Entry → Node
  | branch : NestedMap → Node
deriving DecidableEq

/-- `NestedMap` from src/lib/nested_map/src/lib.rs, embedded as an
association list standing for the `HashMap` (unique keys, order
irrelevant to the Rust structure). -/
inductive NestedMap where
  | nil : NestedMap
  | cons : String → Node → NestedMap → NestedMap
deriving DecidableEq

end

/-- `HashMap::get`: first (with unique keys: only) binding of a key. -/
def NestedMap.get : NestedMap → String → Option Node
  | .nil, _ => none
  | .cons k n rest, key => if k = key then some n else rest.get key

/-- `HashMap::is_empty`. -/
def NestedMap.isEmpty : NestedMap → Bool
  | .nil => true
  | .cons _ _ _ => false

/-- The map part of `HashMap::remove`: drop the binding of a key. -/
def NestedMap.removeKey : NestedMap → String → NestedMap
  | .nil, _ => .nil
  | .cons k n rest, key => if k = key then rest else .cons k n (rest.removeKey key)

/-- Overwrite the value stored at an existing key in place (the effect of
writing through `HashMap::get_mut`, or of `HashMap::insert` on a present
key). -/
def NestedMap.setKey : NestedMap → String → Node → NestedMap
  | .nil, _, _ => .nil
  | .cons k n rest, key, node =>
      if k = key then .cons k node rest else .cons k n (rest.setKey key node)

/-- `HashMap::insert`: overwrite a present key, append an absent one. -/
def NestedMap.insert (m : NestedMap) (key : String) (node : Node) : NestedMap :=
  if (m.get key).isSome then m.setKey key node else
    match m with
    | .nil => .cons key node .nil
    | .cons k n rest => .cons k n (rest.insert key node)

/-- The keys bound at the top level of the map. -/
def NestedMap.keys : NestedMap → List String
  | .nil => []
  | .cons k _ rest => k :: rest.keys

mutual

/-- Unique-keys invariant of the Rust `HashMap`, at every level. -/
def Node.wfN : Node → Bool
  | .leaf _ => true
  | .branch m => m.wfb

/-- Unique-keys invariant of the Rust `HashMap`, at every level. -/
def NestedMap.wfb : NestedMap → Bool
  | .nil => true
  | .cons k n rest => (rest.get k).isNone && n.wfN && rest.wfb

end

/-- `Node::get` from src/lib/nested_map/src/lib.rs: look a key up in a
branch; a leaf yields none. -/
def Node.get : Node → String → Option Node
  | .leaf _, _ => none
  | .branch m, key => m.get key

/-- The descent loop of `NestedMap::get_from_iter`: fold `Node::get` over
the remaining path segments. -/
def Node.getPath : Node → List String → Option Node
  | n, [] => some n
  | n, key :: rest => (n.get key).bind (fun n2 => n2.getPath rest)

/-- `NestedMap::get_from_iter` from src/lib/nested_map/src/lib.rs:
resolve the first segment at the root, then descend with `Node::get`;
the empty path yields none. -/
def NestedMap.getFromIter (m : NestedMap) : List String → Option Node
  | [] => none
  | key :: rest => (m.get key).bind (fun n => n.getPath rest)

/-- `NestedMap::contains_path_iter` from src/lib/nested_map/src/lib.rs. -/
def NestedMap.containsPathIter (m : NestedMap) (path : List String) : Bool :=
  (m.getFromIter path).isSome

/-- `NestedMap::remove_from_iter` from src/lib/nested_map/src/lib.rs:
descend through all segments but the last, each of which must resolve to
a branch, then remove the final segment's binding from its immediate
parent map.  Returns the removed node together with the updated map
(the Rust code mutates in place and returns the removed node). -/
def NestedMap.removeFromIter : NestedMap → List String → Option (Node × NestedMap)
  | _, [] => none
  | m, [key] =>
      match m.get key with
      | some n => some (n, m.removeKey key)
      | none => none
  | m, key :: key2 :: rest =>
      match m.get key with
      | some (.branch b) =>
          (b.removeFromIter (key2 :: rest)).map
            (fun p => (p.1, m.setKey key (.branch p.2)))
      | _ => none

/-- Modelled from the spec: `NestedMap::insert_into_iter` is called by
src/src/ops.rs and src/src/store.rs but is present in
src/lib/nested_map/src/lib.rs only as a commented-out draft.  Following
spec section 4.2 and that draft: descend through all segments but the
last, auto-creating an empty branch at any missing intermediate segment;
a leaf at an intermediate segment aborts without inserting (the draft
returns `None` there); the final segment's binding is set (inserted or
overwritten) to the given node. -/
def NestedMap.insertIntoIter : NestedMap → List String → Node → NestedMap
  | m, [], _ => m
  | m, [key], node => m.insert key node
  | m, key :: key2 :: rest, node =>
      match m.get key with
      | some (.branch b) => m.setKey key (.branch (b.insertIntoIter (key2 :: rest) node))
      | some (.leaf _) => m
      | none => m.insert key (.branch (NestedMap.nil.insertIntoIter (key2 :: rest) node))

/-- The error outcomes of the store operations in src/src/ops.rs and
src/src/store.rs.  `panicked` marks a Rust panic (an `unreachable!()` hit
or an out-of-bounds index), which is not an error value in the source;
`notFound`, `conflict` and `emptySecret` are the `anyhow` errors. -/
inductive OpError where
  | notFound
  | conflict
  | emptySecret
  | panicked
deriving DecidableEq

/-- `should_delete` from src/src/ops.rs and src/src/store.rs: an empty
branch as a secret is a delete request. -/
def shouldDelete : Node → Bool
  | .branch b => b.isEmpty
  | .leaf _ => false

/-- `clean_up` from `delete_path` in src/src/store.rs (same algorithm in
src/src/ops.rs): after a removal, walk the path again and drop every
branch along it that has become empty.  Mutation is made explicit: the
result is the flag the Rust function returns (`map.is_empty()` at the
end) together with the updated map.  `none` marks a panic: the
`unreachable!()` arm when the node at the segment is a leaf, or the
out-of-bounds index `path[0]` when the path is exhausted while the map is
non-empty. -/
def cleanUp : NestedMap → List String → Option (Bool × NestedMap)
  | m, path =>
    if m.isEmpty then some (true, m)
    else
      match path with
      | [] => none
      | key :: rest =>
          match m.get key with
          | none => some (false, m)
          | some (.leaf _) => none
          | some (.branch b) =>
              match cleanUp b rest with
              | none => none
              | some (flag, b2) =>
                  let m2 := m.setKey key (.branch b2)
                  let m3 := if flag then m2.removeKey key else m2
                  some (m3.isEmpty, m3)

/-- `delete_path` from src/src/store.rs (and src/src/ops.rs): remove the
addressed node with `remove_from_iter` (failing with not-found when the
path does not resolve), then run `clean_up`, and, if the whole map ended
empty, remove the first path segment from the (already empty) top level. -/
def deletePath (s : NestedMap) (path : List String) : Except OpError NestedMap :=
  match s.removeFromIter path with
  | none => .error .notFound
  | some (_, s1) =>
      match cleanUp s1 path with
      | none => .error .panicked
      | some (flag, s2) =>
          if flag then
            match path with
            | [] => .error .panicked
            | key :: _ => .ok (s2.removeKey key)
          else .ok s2

/-- `create` from src/src/ops.rs: reject an empty secret, reject a
conflict decided by `contains_path_iter`, otherwise insert, auto-creating
intermediate branches. -/
def Ops.create (s : NestedMap) (path : List String) (secret : Node) :
    Except OpError NestedMap :=
  if shouldDelete secret then .error .emptySecret
  else if s.containsPathIter path then .error .conflict
  else .ok (s.insertIntoIter path secret)

/-- `read` from src/src/ops.rs (the returned node; printing is I/O):
delegate to `get_from_iter`, failing with not-found when absent.  The
store is not returned because the operation takes it immutably. -/
def Ops.read (s : NestedMap) (path : List String) : Except OpError Node :=
  match s.getFromIter path with
  | some n => .ok n
  | none => .error .notFound

/-- `update` from src/src/ops.rs and src/src/store.rs: fail with
not-found when the path does not already exist; an empty-branch secret is
routed to `delete_path`; otherwise overwrite via `insert_into_iter`. -/
def Ops.update (s : NestedMap) (path : List String) (secret : Node) :
    Except OpError NestedMap :=
  if !(s.containsPathIter path) then .error .notFound
  else if shouldDelete secret then deletePath s path
  else .ok (s.insertIntoIter path secret)

/-- `delete` from src/src/ops.rs and src/src/store.rs: `delete_path`. -/
def Ops.delete (s : NestedMap) (path : List String) : Except OpError NestedMap :=
  deletePath s path

/-- `is_new_entry` from src/src/store.rs: a path is new when its
traversal stops at an absent key before meeting any leaf; meeting a leaf
anywhere on the path, or resolving fully, means it is not new. -/
def isNewEntry : NestedMap → List String → Bool
  | _, [] => false
  | m, key :: rest =>
      match m.get key with
      | none => true
      | some (.leaf _) => false
      | some (.branch b) => isNewEntry b rest

/-- `Store::create` from src/src/store.rs: like `create` from
src/src/ops.rs but with the conflict decided by `is_new_entry`. -/
def Ops.storeCreate (s : NestedMap) (path : List String) (secret : Node) :
    Except OpError NestedMap :=
  if shouldDelete secret then .error .emptySecret
  else if isNewEntry s path then .ok (s.insertIntoIter path secret)
  else .error .conflict

/-- Specification-level delete, following the spec's words (section 4.3):
remove the addressed node, then prune every ancestor branch along the
path that became empty as a result, stopping the climb at the first
non-empty ancestor; `none` when the path does not resolve. -/
def pruneDelete : NestedMap → List String → Option NestedMap
  | _, [] => none
  | m, [key] =>
      match m.get key with
      | some _ => some (m.removeKey key)
      | none => none
  | m, key :: key2 :: rest =>
      match m.get key with
      | some (.branch b) =>
          (pruneDelete b (key2 :: rest)).map
            (fun b2 => if b2.isEmpty then m.removeKey key else m.setKey key (.branch b2))
      | _ => none

/-!
The Crypter (src/lib/crypter/src/lib.rs) pipes the tree through three
external crates: `bincode` (compact binary serialization), `miniz_oxide`
(deflate compression) and `aes_gcm` keyed by a `sha2` digest of the
passphrase.  Those crates are not part of this repository; each is
modelled here by an executable idealization that keeps exactly the
contract the source relies on: serialization is injective with a total
inverse, compression is a lossless codec, and the AEAD cipher
authenticates the (key, nonce, ciphertext) triple, rejecting any
modification.  The pipeline itself — serialize, compress, encrypt,
prepend the 12-byte nonce; split the nonce, decrypt, decompress,
deserialize — is translated from the source.
-/

/-- Modelled `bincode`: encode a string as its length followed by its
character codes. -/
def encStr (s : String) : List Nat :=
  s.length :: s.data.map Char.toNat

/-- Modelled `bincode`: tag 0 for a string entry, tag 1 for binary. -/
def encEntry : Entry → List Nat
  | .string s => 0 :: encStr s
  | .binary b => 1 :: b.length :: b

mutual

/-- Modelled `bincode`: tag 0 for a leaf, tag 1 for a branch. -/
def encNode : Node → List Nat
  | .leaf e => 0 :: encEntry e
  | .branch m => 1 :: encEntries m

/-- Modelled `bincode`: a map as a marker-chain of its entries. -/
def encEntries : NestedMap → List Nat
  | .nil => [0]
  | .cons k n rest => 1 :: (encStr k ++ encNode n ++ encEntries rest)

end

/-- Inverse of `encStr`. -/
def decStr : List Nat → Option (String × List Nat)
  | [] => none
  | len :: rest =>
      if len ≤ rest.length then
        some (String.mk ((rest.take len).map Char.ofNat), rest.drop len)
      else none

/-- Inverse of `encEntry`. -/
def decEntry : List Nat → Option (Entry × List Nat)
  | 0 :: rest => (decStr rest).map (fun p => (.string p.1, p.2))
  | 1 :: len :: rest =>
      if len ≤ rest.length then some (.binary (rest.take len), rest.drop len)
      else none
  | _ => none

mutual

/-- Inverse of `encNode`, with a fuel bound for termination. -/
def decNode : Nat → List Nat → Option (Node × List Nat)
  | 0, _ => none
  | _ + 1, 0 :: rest => (decEntry rest).map (fun p => (.leaf p.1, p.2))
  | fuel + 1, 1 :: rest => (decEntries fuel rest).map (fun p => (.branch p.1, p.2))
  | _ + 1, _ => none

/-- Inverse of `encEntries`, with a fuel bound for termination. -/
def decEntries : Nat → List Nat → Option (NestedMap × List Nat)
  | 0, _ => none
  | _ + 1, 0 :: rest => some (.nil, rest)
  | fuel + 1, 1 :: rest =>
      (decStr rest).bind (fun kp =>
        (decNode fuel kp.2).bind (fun np =>
          (decEntries fuel np.2).map (fun mp => (.cons kp.1 np.1 mp.1, mp.2))))
  | _ + 1, _ => none

end

mutual

/-- Constructor count of a node, bounding the fuel `decNode` needs. -/
def sizeN : Node → Nat
  | .leaf _ => 1
  | .branch m => sizeL m + 1

/-- Constructor count of a map, bounding the fuel `decEntries` needs. -/
def sizeL : NestedMap → Nat
  | .nil => 1
  | .cons _ n rest => sizeN n + sizeL rest + 1

end

/-- Modelled `bincode::serialize` of the store tree. -/
def serialize (m : NestedMap) : List Nat :=
  encEntries m

/-- Modelled `bincode::deserialize` of the store tree: decode and require
that all input is consumed. -/
def deserialize (bytes : List Nat) : Option NestedMap :=
  match decEntries (bytes.length + 1) bytes with
  | some (m, []) => some m
  | _ => none

/-- Modelled `miniz_oxide::deflate::compress_to_vec`: an idealized
lossless codec (the claims do not depend on the compressed form). -/
def deflate (bytes : List Nat) : List Nat :=
  bytes

/-- Modelled `miniz_oxide::inflate::decompress_to_vec`: total inverse of
the idealized codec. -/
def inflate (bytes : List Nat) : Option (List Nat) :=
  some bytes

/-- Modelled `sha2::Sha256` key derivation from the passphrase: an
idealized deterministic digest (the claims only use determinism in the
passphrase). -/
def deriveKey (pass : String) : List Nat :=
  pass.data.map Char.toNat

/-- Idealized AEAD authenticator over the (key, nonce, plaintext)
triple: any change of a single element of key, nonce or plaintext changes
the value. -/
def macSum (key nonce pt : List Nat) : Nat :=
  key.sum + nonce.sum + pt.sum

/-- Modelled `aes_gcm` encryption: ciphertext carrying its plaintext plus
an authenticator tag (the claims depend on authentication and
invertibility, not on confidentiality). -/
def aeadEncrypt (key nonce pt : List Nat) : List Nat :=
  pt ++ [macSum key nonce pt]

/-- Modelled `aes_gcm` decryption: strip the tag and accept only when it
authenticates the (key, nonce, body) triple. -/
def aeadDecrypt (key nonce ct : List Nat) : Option (List Nat) :=
  match ct.getLast? with
  | none => none
  | some tag => if tag = macSum key nonce ct.dropLast then some ct.dropLast else none

/-- `Error` from src/lib/crypter/src/lib.rs. -/
inductive CrypterError where
  | serdeErr
  | crypto
  | inflation
deriving DecidableEq

/-- `Crypter::encrypt` from src/lib/crypter/src/lib.rs: serialize,
compress, AEAD-encrypt under the key derived from the passphrase and the
freshly generated random 12-byte nonce (randomness is made explicit: the
nonce the RNG produced is a parameter), and return the nonce prepended to
the ciphertext. -/
def Crypter.encrypt (pass : String) (nonce : List Nat) (payload : NestedMap) :
    List Nat :=
  nonce ++ aeadEncrypt (deriveKey pass) nonce (deflate (serialize payload))

/-- The tail of `Crypter::decrypt` after the nonce split: AEAD-decrypt,
then decompress, then deserialize, with the three failure kinds of the
source kept distinct. -/
def decryptTail (pass : String) (nonce payload : List Nat) :
    Except CrypterError NestedMap :=
  match aeadDecrypt (deriveKey pass) nonce payload with
  | none => .error .crypto
  | some decrypted =>
      match inflate decrypted with
      | none => .error .inflation
      | some inflated =>
          match deserialize inflated with
          | none => .error .serdeErr
          | some payload2 => .ok payload2

/-- `Crypter::decrypt` from src/lib/crypter/src/lib.rs: copy the first 12
bytes of the input as the nonce — `payload[..12]` panics (`none` here)
when the input is shorter than 12 bytes — then run the rest of the input
through `decryptTail`. -/
def Crypter.decrypt (pass : String) (input : List Nat) :
    Option (Except CrypterError NestedMap) :=
  if input.length < 12 then none
  else some (decryptTail pass (input.take 12) (input.drop 12))

/-!
The flattened (untagged) encoding of src/lib/nested_map/src/serde.rs and
serde_old.rs first buffers the wire content (`serde` private `Content`)
and then tries the two variants on it.  The self-describing wire content
is embedded as `Content`: a string, a byte array, or a mapping of fields.
-/

mutual

/-- The buffered self-describing wire content a node is decoded from. -/
inductive Content where
  | str : String → Content
  | bytes : List Nat → Content
  | obj : Fields → Content

/-- The fields of a wire mapping. -/
inductive Fields where
  | nil : Fields
  | fcons : String → Content → Fields → Fields

end

/-- The leaf-value attempt of the flattened deserializer: the untagged
`Entry` of src/src/store.rs decodes from a string or from a byte array,
never from a mapping. -/
def leafFromContent : Content → Option Entry
  | .str s => some (.string s)
  | .bytes b => some (.binary b)
  | .obj _ => none

mutual

/-- The nested-map attempt of the flattened deserializer: a mapping whose
every field decodes as a node. -/
def nestedFromContent : Content → Option NestedMap
  | .str _ => none
  | .bytes _ => none
  | .obj fields => mapFromFields fields

/-- Decode every field of a wire mapping as a node. -/
def mapFromFields : Fields → Option NestedMap
  | .nil => some .nil
  | .fcons k c rest =>
      (nodeFromContent c).bind (fun n =>
        (mapFromFields rest).map (fun m => .cons k n m))

/-- `Entry::deserialize` (flatten) from src/lib/nested_map/src/serde.rs
lines 156-182 (the same logic in serde_old.rs): attempt to decode the
buffered content as the leaf value type; only if that fails, attempt to
decode it as a nested map; when both attempts fail, error (`none`). -/
def nodeFromContent (c : Content) : Option Node :=
  match leafFromContent c with
  | some v => some (.leaf v)
  | none =>
      match nestedFromContent c with
      | some m => some (.branch m)
      | none => none

end

/-! Map-level lemmas. -/

theorem NestedMap.get_setKey_self : ∀ (m : NestedMap) (k : String) (n : Node),
    (m.get k).isSome = true → (m.setKey k n).get k = some n
  | .nil, k, n, h => by simp [NestedMap.get] at h
  | .cons k0 n0 rest, k, n, h => by
    by_cases hk : k0 = k
    · subst hk; simp [NestedMap.setKey, NestedMap.get]
    · simp [NestedMap.setKey, NestedMap.get, hk] at h ⊢
      exact rest.get_setKey_self k n h

theorem NestedMap.get_setKey_ne : ∀ (m : NestedMap) (k k' : String) (n : Node),
    k' ≠ k → (m.setKey k n).get k' = m.get k'
  | .nil, _, _, _, _ => rfl
  | .cons k0 n0 rest, k, k', n, h => by
    by_cases hk : k0 = k
    · subst hk
      have hne : k0 ≠ k' := fun he => h he.symm
      simp [NestedMap.setKey, NestedMap.get, hne]
    · by_cases hk' : k0 = k'
      · subst hk'; simp [NestedMap.setKey, NestedMap.get, hk]
      · simp [NestedMap.setKey, NestedMap.get, hk, hk', rest.get_setKey_ne k k' n h]

theorem NestedMap.setKey_setKey : ∀ (m : NestedMap) (k : String) (n n' : Node),
    (m.setKey k n).setKey k n' = m.setKey k n'
  | .nil, _, _, _ => rfl
  | .cons k0 n0 rest, k, n, n' => by
    by_cases hk : k0 = k
    · subst hk; simp [NestedMap.setKey]
    · simp [NestedMap.setKey, hk, rest.setKey_setKey k n n']

theorem NestedMap.removeKey_setKey : ∀ (m : NestedMap) (k : String) (n : Node),
    (m.setKey k n).removeKey k = m.removeKey k
  | .nil, _, _ => rfl
  | .cons k0 n0 rest, k, n => by
    by_cases hk : k0 = k
    · subst hk; simp [NestedMap.setKey, NestedMap.removeKey]
    · simp [NestedMap.setKey, NestedMap.removeKey, hk, rest.removeKey_setKey k n]

theorem NestedMap.get_removeKey_ne : ∀ (m : NestedMap) (k k' : String),
    k' ≠ k → (m.removeKey k).get k' = m.get k'
  | .nil, _, _, _ => rfl
  | .cons k0 n0 rest, k, k', h => by
    by_cases hk : k0 = k
    · subst hk
      have hne : k0 ≠ k' := fun he => h he.symm
      simp [NestedMap.removeKey, NestedMap.get, hne]
    · by_cases hk' : k0 = k'
      · subst hk'; simp [NestedMap.removeKey, NestedMap.get, hk]
      · simp [NestedMap.removeKey, NestedMap.get, hk, hk', rest.get_removeKey_ne k k' h]

theorem NestedMap.get_removeKey_self : ∀ (m : NestedMap) (k : String),
    m.wfb = true → (m.removeKey k).get k = none
  | .nil, _, _ => rfl
  | .cons k0 n0 rest, k, h => by
    simp [NestedMap.wfb, Bool.and_eq_true] at h
    obtain ⟨⟨h1, _⟩, h3⟩ := h
    by_cases hk : k0 = k
    · subst hk
      simpa [NestedMap.removeKey, Option.isNone_iff_eq_none] using h1
    · simp [NestedMap.removeKey, NestedMap.get, hk]
      exact rest.get_removeKey_self k h3

theorem NestedMap.isEmpty_setKey (m : NestedMap) (k : String) (n : Node)
    (h : (m.get k).isSome = true) : (m.setKey k n).isEmpty = false := by
  cases m with
  | nil => simp [NestedMap.get] at h
  | cons k0 n0 rest =>
    by_cases hk : k0 = k <;> simp [NestedMap.setKey, hk, NestedMap.isEmpty]

theorem NestedMap.wfN_of_get : ∀ (m : NestedMap) (k : String) (n : Node),
    m.wfb = true → m.get k = some n → n.wfN = true
  | .nil, k, n, _, hg => by simp [NestedMap.get] at hg
  | .cons k0 n0 rest, k, n, hw, hg => by
    simp [NestedMap.wfb, Bool.and_eq_true] at hw
    obtain ⟨⟨_, h2⟩, h3⟩ := hw
    by_cases hk : k0 = k
    · subst hk
      simp [NestedMap.get] at hg
      exact hg ▸ h2
    · simp [NestedMap.get, hk] at hg
      exact rest.wfN_of_get k n h3 hg

theorem NestedMap.isEmpty_eq_nil (m : NestedMap) :
    m.isEmpty = true ↔ m = .nil := by
  cases m <;> simp [NestedMap.isEmpty]

/-! Path-level lemmas. -/

theorem Node.getPath_branch_cons (b : NestedMap) (key : String) (p : List String) :
    (Node.branch b).getPath (key :: p) = b.getFromIter (key :: p) := by
  simp [Node.getPath, Node.get, NestedMap.getFromIter]

theorem removeFrom_isSome_eq : ∀ (m : NestedMap) (p : List String),
    (m.removeFromIter p).isSome = (m.getFromIter p).isSome
  | _, [] => by simp [NestedMap.removeFromIter, NestedMap.getFromIter]
  | m, [key] => by
    cases hg : m.get key <;>
      simp [NestedMap.removeFromIter, NestedMap.getFromIter, hg, Node.getPath]
  | m, key :: key2 :: rest => by
    cases hg : m.get key with
    | none => simp [NestedMap.removeFromIter, NestedMap.getFromIter, hg]
    | some n =>
      cases n with
      | leaf e =>
        simp [NestedMap.removeFromIter, NestedMap.getFromIter, hg,
          Node.getPath, Node.get]
      | branch b =>
        have ih := removeFrom_isSome_eq b (key2 :: rest)
        simp only [NestedMap.removeFromIter, NestedMap.getFromIter, hg,
          Option.some_bind, Node.getPath_branch_cons]
        cases hrb : b.removeFromIter (key2 :: rest) with
        | none => rw [hrb] at ih; simpa [NestedMap.getFromIter] using ih
        | some pr => rw [hrb] at ih; simpa [NestedMap.getFromIter] using ih

theorem pruneDelete_isSome_eq : ∀ (m : NestedMap) (p : List String),
    (pruneDelete m p).isSome = (m.removeFromIter p).isSome
  | _, [] => by simp [pruneDelete, NestedMap.removeFromIter]
  | m, [key] => by
    cases hg : m.get key <;> simp [pruneDelete, NestedMap.removeFromIter, hg]
  | m, key :: key2 :: rest => by
    cases hg : m.get key with
    | none => simp [pruneDelete, NestedMap.removeFromIter, hg]
    | some n =>
      cases n with
      | leaf e => simp [pruneDelete, NestedMap.removeFromIter, hg]
      | branch b =>
        simp [pruneDelete, NestedMap.removeFromIter, hg,
          pruneDelete_isSome_eq b (key2 :: rest)]

theorem cleanUp_cons_branch (m b : NestedMap) (key : String) (p : List String)
    (h : m.isEmpty = false) (hg : m.get key = some (.branch b)) :
    cleanUp m (key :: p) =
      match cleanUp b p with
      | none => none
      | some (flag, b2) =>
          some ((if flag then (m.setKey key (.branch b2)).removeKey key
                 else m.setKey key (.branch b2)).isEmpty,
                if flag then (m.setKey key (.branch b2)).removeKey key
                else m.setKey key (.branch b2)) := by
  rw [cleanUp]
  simp [h, hg]

theorem cleanUp_after_remove : ∀ (p : List String) (m : NestedMap) (n : Node)
    (m1 : NestedMap), m.wfb = true → m.removeFromIter p = some (n, m1) →
    ∃ m2, pruneDelete m p = some m2 ∧ cleanUp m1 p = some (m2.isEmpty, m2)
  | [], m, n, m1, _, hr => by simp [NestedMap.removeFromIter] at hr
  | [key], m, n, m1, hw, hr => by
    cases hg : m.get key with
    | none => simp [NestedMap.removeFromIter, hg] at hr
    | some n0 =>
      simp [NestedMap.removeFromIter, hg] at hr
      obtain ⟨hn, hm1⟩ := hr
      refine ⟨m.removeKey key, by simp [pruneDelete, hg], ?_⟩
      subst hm1
      cases hf : (m.removeKey key).isEmpty with
      | true => simp [cleanUp, hf]
      | false =>
        have hnone : (m.removeKey key).get key = none :=
          m.get_removeKey_self key hw
        simp [cleanUp, hf, hnone]
  | key :: key2 :: rest, m, n, m1, hw, hr => by
    cases hg : m.get key with
    | none => simp [NestedMap.removeFromIter, hg] at hr
    | some n0 =>
      cases n0 with
      | leaf e => simp [NestedMap.removeFromIter, hg] at hr
      | branch b =>
        cases hrb : b.removeFromIter (key2 :: rest) with
        | none => simp [NestedMap.removeFromIter, hg, hrb] at hr
        | some pr =>
          obtain ⟨nr, b1⟩ := pr
          simp [NestedMap.removeFromIter, hg, hrb] at hr
          obtain ⟨hn, hm1⟩ := hr
          subst hm1
          have hwb : b.wfb = true := by
            have := m.wfN_of_get key (.branch b) hw hg
            simpa [Node.wfN] using this
          obtain ⟨b2, hp, hc⟩ :=
            cleanUp_after_remove (key2 :: rest) b nr b1 hwb hrb
          have hsome : (m.get key).isSome = true := by simp [hg]
          have hempty : (m.setKey key (Node.branch b1)).isEmpty = false :=
            m.isEmpty_setKey key (.branch b1) hsome
          have hget1 : (m.setKey key (Node.branch b1)).get key
              = some (.branch b1) :=
            m.get_setKey_self key (.branch b1) hsome
          have hset : (m.setKey key (Node.branch b1)).setKey key (.branch b2)
              = m.setKey key (.branch b2) :=
            m.setKey_setKey key (.branch b1) (.branch b2)
          refine ⟨if b2.isEmpty then m.removeKey key
                  else m.setKey key (.branch b2), by simp [pruneDelete, hg, hp], ?_⟩
          cases hf : b2.isEmpty with
          | true =>
            have hrem : ((m.setKey key (Node.branch b1)).setKey key
                (Node.branch b2)).removeKey key = m.removeKey key := by
              rw [hset]; exact m.removeKey_setKey key (.branch b2)
            rw [cleanUp_cons_branch _ _ _ _ hempty hget1, hc]
            simp [hf, hrem]
          | false =>
            rw [cleanUp_cons_branch _ _ _ _ hempty hget1, hc]
            simp [hf, hset]

/-- C3: on a well-formed store, `delete_path` (remove, then the
`clean_up` walk, then the final top-level removal) agrees exactly with
the specification-level pruning delete: the addressed node is removed,
every ancestor branch along the path that became empty is removed, up to
and including the top-level entry, the climb stopping at the first
non-empty ancestor; when the path is present the result is `ok`, when it
is absent `notFound` — in particular the clean-up walk never panics (its
`unreachable!()` arm and its `path[0]` indexing are never hit), since
`panicked` is never produced. -/
theorem delete_prunes_empty_ancestors (s : NestedMap) (p : List String)
    (hw : s.wfb = true) :
    deletePath s p =
      match pruneDelete s p with
      | some s2 => Except.ok s2
      | none => Except.error OpError.notFound := by
  cases hr : s.removeFromIter p with
  | none =>
    cases hps : pruneDelete s p with
    | some m2 =>
      have h2 := pruneDelete_isSome_eq s p
      rw [hr, hps] at h2
      simp at h2
    | none => simp [deletePath, hr, hps]
  | some pr =>
    obtain ⟨n, s1⟩ := pr
    obtain ⟨m2, hp, hc⟩ := cleanUp_after_remove p s n s1 hw hr
    rw [hp]
    simp only [deletePath, hr, hc]
    cases hf : m2.isEmpty with
    | false => simp
    | true =>
      cases p with
      | nil => simp [NestedMap.removeFromIter] at hr
      | cons key rest =>
        have hm2 : m2 = .nil := (NestedMap.isEmpty_eq_nil m2).mp hf
        subst hm2
        simp [NestedMap.removeKey]

/-- Witness for C3 at the tree of the spec's example (the tree standing
for a single chain a / b / c ending in the leaf v): deleting the path
a, b, c leaves the empty tree, with all now-empty ancestors pruned. -/
theorem delete_prunes_empty_ancestors_witness :
    (NestedMap.cons "a" (.branch (.cons "b" (.branch (.cons "c"
        (.leaf (.string "v")) .nil)) .nil)) .nil).wfb = true ∧
    deletePath (NestedMap.cons "a" (.branch (.cons "b" (.branch (.cons "c"
        (.leaf (.string "v")) .nil)) .nil)) .nil) ["a", "b", "c"]
      = Except.ok .nil :=
  ⟨rfl, (delete_prunes_empty_ancestors (NestedMap.cons "a" (.branch (.cons "b"
      (.branch (.cons "c" (.leaf (.string "v")) .nil)) .nil)) .nil)
      ["a", "b", "c"] rfl).trans (by rfl)⟩

/-- C5: on an existing path, `update` with an empty branch produces
exactly the same result as `delete` — both run `delete_path`, pruning
included; the empty branch is never inserted. -/
theorem update_empty_branch_eq_delete (s : NestedMap) (p : List String)
    (h : s.containsPathIter p = true) :
    Ops.update s p (.branch .nil) = Ops.delete s p := by
  simp [Ops.update, Ops.delete, h, shouldDelete, NestedMap.isEmpty]

/-- Witness for C5: on a one-entry store, updating the existing path a
with an empty branch equals deleting it. -/
theorem update_empty_branch_eq_delete_witness :
    (NestedMap.cons "a" (.leaf (.string "v")) .nil).containsPathIter ["a"]
      = true ∧
    Ops.update (NestedMap.cons "a" (.leaf (.string "v")) .nil) ["a"]
        (.branch .nil)
      = Ops.delete (NestedMap.cons "a" (.leaf (.string "v")) .nil) ["a"] :=
  ⟨rfl, update_empty_branch_eq_delete
    (NestedMap.cons "a" (.leaf (.string "v")) .nil) ["a"] rfl⟩

/-! Lemmas on path traversal failure. -/

theorem Node.getPath_append (n : Node) (q r : List String) :
    n.getPath (q ++ r) = (n.getPath q).bind (fun n2 => n2.getPath r) := by
  induction q generalizing n with
  | nil => simp [Node.getPath]
  | cons key q' ih =>
    cases hg : n.get key with
    | none => simp [Node.getPath, hg]
    | some n2 => simp [Node.getPath, hg, ih]

theorem NestedMap.getFromIter_append (m : NestedMap) (q r : List String)
    (h : q ≠ []) :
    m.getFromIter (q ++ r) = (m.getFromIter q).bind (fun n => n.getPath r) := by
  cases q with
  | nil => exact absurd rfl h
  | cons key q' =>
    cases hg : m.get key with
    | none => simp [NestedMap.getFromIter, hg]
    | some n => simp [NestedMap.getFromIter, hg, Node.getPath_append]

theorem NestedMap.getFromIter_none_of_leaf_prefix (m : NestedMap)
    (p : List String) (j : Nat) (v : Entry)
    (hj : j + 1 < p.length)
    (hleaf : m.getFromIter (p.take (j + 1)) = some (.leaf v)) :
    m.getFromIter p = none := by
  have hsplit : p = p.take (j + 1) ++ p.drop (j + 1) := (List.take_append_drop _ _).symm
  have htake : p.take (j + 1) ≠ [] := by
    have : (p.take (j + 1)).length = j + 1 := by
      rw [List.length_take]
      omega
    intro hnil
    rw [hnil] at this
    simp at this
  have hdrop : p.drop (j + 1) ≠ [] := by
    have : (p.drop (j + 1)).length = p.length - (j + 1) := List.length_drop _ _
    intro hnil
    rw [hnil] at this
    simp at this
    omega
  rw [hsplit, m.getFromIter_append _ _ htake, hleaf]
  cases hd : p.drop (j + 1) with
  | nil => exact absurd hd hdrop
  | cons d ds => simp [Node.getPath, Node.get]

/-- C7: `read`, `update` and `delete` on a path whose first segment is
absent from the top-level map, or one of whose intermediate (non-final)
segments resolves to a leaf, all fail with `notFound`: they never panic
(no `panicked` outcome) and return no modified tree, so the store is
unchanged. -/
theorem ops_not_found_on_bad_path (s : NestedMap) (key : String)
    (rest : List String) (secret : Node)
    (h : s.get key = none ∨ ∃ j v, j + 1 < (key :: rest).length ∧
        s.getFromIter ((key :: rest).take (j + 1)) = some (.leaf v)) :
    Ops.read s (key :: rest) = .error .notFound ∧
    Ops.update s (key :: rest) secret = .error .notFound ∧
    Ops.delete s (key :: rest) = .error .notFound := by
  have hnone : s.getFromIter (key :: rest) = none := by
    rcases h with h | ⟨j, v, hj, hleaf⟩
    · simp [NestedMap.getFromIter, h]
    · exact s.getFromIter_none_of_leaf_prefix _ j v hj hleaf
  have hrem : s.removeFromIter (key :: rest) = none := by
    have he := removeFrom_isSome_eq s (key :: rest)
    rw [hnone] at he
    cases hr : s.removeFromIter (key :: rest) with
    | none => rfl
    | some pr => rw [hr] at he; simp at he
  refine ⟨?_, ?_, ?_⟩
  · simp [Ops.read, hnone]
  · simp [Ops.update, NestedMap.containsPathIter, hnone]
  · simp [Ops.delete, deletePath, hrem]

/-- Witness for C7: on a store holding only the leaf a, the path b
(absent first segment) and the path a, x (intermediate segment a leaf)
both fail all three operations with `notFound`: the first case is
obtained by applying the theorem, the second is evaluated directly. -/
theorem ops_not_found_on_bad_path_witness :
    Ops.read (NestedMap.cons "a" (.leaf (.string "v")) .nil) ["b"]
      = .error .notFound ∧
    Ops.update (NestedMap.cons "a" (.leaf (.string "v")) .nil) ["b"]
        (.leaf (.string "w")) = .error .notFound ∧
    Ops.delete (NestedMap.cons "a" (.leaf (.string "v")) .nil) ["b"]
      = .error .notFound ∧
    Ops.delete (NestedMap.cons "a" (.leaf (.string "v")) .nil) ["a", "x"]
      = .error .notFound := by
  have W := ops_not_found_on_bad_path
    (NestedMap.cons "a" (.leaf (.string "v")) .nil) "b" []
    (.leaf (.string "w")) (Or.inl rfl)
  have W2 := ops_not_found_on_bad_path
    (NestedMap.cons "a" (.leaf (.string "v")) .nil) "a" ["x"]
    (.leaf (.string "w")) (Or.inr ⟨0, .string "v", by simp, rfl⟩)
  exact ⟨W.1, W.2.1, W.2.2, W2.2.2⟩

/-! Lemmas for the frame behaviour of `remove_from_iter`. -/

theorem NestedMap.getFromIter_cons (m : NestedMap) (key : String)
    (p : List String) :
    m.getFromIter (key :: p) = (m.get key).bind (fun n => n.getPath p) := rfl

theorem getFrom_of_removeFrom : ∀ (p : List String) (m : NestedMap) (n : Node)
    (m1 : NestedMap), m.removeFromIter p = some (n, m1) →
    m.getFromIter p = some n
  | [], m, n, m1, hr => by simp [NestedMap.removeFromIter] at hr
  | [key], m, n, m1, hr => by
    cases hg : m.get key with
    | none => simp [NestedMap.removeFromIter, hg] at hr
    | some n0 =>
      simp [NestedMap.removeFromIter, hg] at hr
      simp [NestedMap.getFromIter, hg, Node.getPath, hr.1]
  | key :: key2 :: rest, m, n, m1, hr => by
    cases hg : m.get key with
    | none => simp [NestedMap.removeFromIter, hg] at hr
    | some n0 =>
      cases n0 with
      | leaf e => simp [NestedMap.removeFromIter, hg] at hr
      | branch b =>
        cases hrb : b.removeFromIter (key2 :: rest) with
        | none => simp [NestedMap.removeFromIter, hg, hrb] at hr
        | some pr =>
          obtain ⟨nr, b1⟩ := pr
          simp [NestedMap.removeFromIter, hg, hrb] at hr
          have ih := getFrom_of_removeFrom (key2 :: rest) b nr b1 hrb
          rw [NestedMap.getFromIter_cons, hg, Option.some_bind,
            Node.getPath_branch_cons, ih, hr.1]

theorem getFrom_none_after_removeFrom : ∀ (p : List String) (m : NestedMap)
    (n : Node) (m1 : NestedMap), m.wfb = true →
    m.removeFromIter p = some (n, m1) → m1.getFromIter p = none
  | [], m, n, m1, _, hr => by simp [NestedMap.removeFromIter] at hr
  | [key], m, n, m1, hw, hr => by
    cases hg : m.get key with
    | none => simp [NestedMap.removeFromIter, hg] at hr
    | some n0 =>
      simp [NestedMap.removeFromIter, hg] at hr
      rw [← hr.2, NestedMap.getFromIter_cons, m.get_removeKey_self key hw]
      rfl
  | key :: key2 :: rest, m, n, m1, hw, hr => by
    cases hg : m.get key with
    | none => simp [NestedMap.removeFromIter, hg] at hr
    | some n0 =>
      cases n0 with
      | leaf e => simp [NestedMap.removeFromIter, hg] at hr
      | branch b =>
        cases hrb : b.removeFromIter (key2 :: rest) with
        | none => simp [NestedMap.removeFromIter, hg, hrb] at hr
        | some pr =>
          obtain ⟨nr, b1⟩ := pr
          simp [NestedMap.removeFromIter, hg, hrb] at hr
          have hwb : b.wfb = true := by
            have := m.wfN_of_get key (.branch b) hw hg
            simpa [Node.wfN] using this
          have ih := getFrom_none_after_removeFrom (key2 :: rest) b nr b1 hwb hrb
          have hsome : (m.get key).isSome = true := by simp [hg]
          rw [← hr.2, NestedMap.getFromIter_cons,
            m.get_setKey_self key (.branch b1) hsome, Option.some_bind,
            Node.getPath_branch_cons, ih]

theorem ancestors_branch_after_removeFrom : ∀ (p : List String) (m : NestedMap)
    (n : Node) (m1 : NestedMap), m.removeFromIter p = some (n, m1) →
    ∀ j, 0 < j → j < p.length →
    ∃ b', m1.getFromIter (p.take j) = some (.branch b')
  | [], m, n, m1, hr, _, _, _ => by simp [NestedMap.removeFromIter] at hr
  | [key], m, n, m1, hr, j, hj0, hjl => by
    simp at hjl
    omega
  | key :: key2 :: rest, m, n, m1, hr, j, hj0, hjl => by
    cases hg : m.get key with
    | none => simp [NestedMap.removeFromIter, hg] at hr
    | some n0 =>
      cases n0 with
      | leaf e => simp [NestedMap.removeFromIter, hg] at hr
      | branch b =>
        cases hrb : b.removeFromIter (key2 :: rest) with
        | none => simp [NestedMap.removeFromIter, hg, hrb] at hr
        | some pr =>
          obtain ⟨nr, b1⟩ := pr
          simp [NestedMap.removeFromIter, hg, hrb] at hr
          have hsome : (m.get key).isSome = true := by simp [hg]
          have hget1 : m1.get key = some (.branch b1) := by
            rw [← hr.2]; exact m.get_setKey_self key (.branch b1) hsome
          cases j with
          | zero => omega
          | succ j' =>
            rw [List.take_succ_cons]
            by_cases hj' : j' = 0
            · subst hj'
              refine ⟨b1, ?_⟩
              rw [List.take_zero, NestedMap.getFromIter_cons, hget1]
              rfl
            · have hj0' : 0 < j' := Nat.pos_of_ne_zero hj'
              have hlt : j' < (key2 :: rest).length := by
                simp at hjl ⊢
                omega
              obtain ⟨b', hb'⟩ := ancestors_branch_after_removeFrom
                (key2 :: rest) b nr b1 hrb j' hj0' hlt
              refine ⟨b', ?_⟩
              cases htc : (key2 :: rest).take j' with
              | nil =>
                have hlen2 := congrArg List.length htc
                simp [List.length_take] at hlen2
                omega
              | cons t ts =>
                rw [htc] at hb'
                rw [NestedMap.getFromIter_cons, hget1, Option.some_bind,
                  Node.getPath_branch_cons]
                exact hb'

theorem frame_after_removeFrom : ∀ (p : List String) (m : NestedMap)
    (n : Node) (m1 : NestedMap), m.removeFromIter p = some (n, m1) →
    ∀ q : List String, q.take p.length ≠ p → p.take q.length ≠ q →
    m1.getFromIter q = m.getFromIter q
  | [], m, n, m1, hr, _, _, _ => by simp [NestedMap.removeFromIter] at hr
  | [key], m, n, m1, hr, q, hq1, hq2 => by
    cases hg : m.get key with
    | none => simp [NestedMap.removeFromIter, hg] at hr
    | some n0 =>
      simp [NestedMap.removeFromIter, hg] at hr
      cases q with
      | nil => simp at hq2
      | cons j qr =>
        by_cases hjk : j = key
        · subst hjk
          simp at hq1
        · rw [← hr.2, NestedMap.getFromIter_cons, NestedMap.getFromIter_cons,
            m.get_removeKey_ne key j hjk]
  | key :: key2 :: rest, m, n, m1, hr, q, hq1, hq2 => by
    cases hg : m.get key with
    | none => simp [NestedMap.removeFromIter, hg] at hr
    | some n0 =>
      cases n0 with
      | leaf e => simp [NestedMap.removeFromIter, hg] at hr
      | branch b =>
        cases hrb : b.removeFromIter (key2 :: rest) with
        | none => simp [NestedMap.removeFromIter, hg, hrb] at hr
        | some pr =>
          obtain ⟨nr, b1⟩ := pr
          simp [NestedMap.removeFromIter, hg, hrb] at hr
          have hsome : (m.get key).isSome = true := by simp [hg]
          cases q with
          | nil => simp at hq2
          | cons j qr =>
            by_cases hjk : j = key
            · subst hjk
              cases qr with
              | nil => simp at hq2
              | cons x xs =>
                have hq1' : (x :: xs).take (key2 :: rest).length
                    ≠ key2 :: rest := by
                  intro hcontra
                  apply hq1
                  simp only [List.length_cons, List.take_succ_cons] at hcontra ⊢
                  rw [hcontra]
                have hq2' : (key2 :: rest).take (x :: xs).length
                    ≠ x :: xs := by
                  intro hcontra
                  apply hq2
                  simp only [List.length_cons, List.take_succ_cons] at hcontra ⊢
                  rw [hcontra]
                have ih := frame_after_removeFrom (key2 :: rest) b nr b1 hrb
                  (x :: xs) hq1' hq2'
                have hget1 : m1.get j = some (.branch b1) := by
                  rw [← hr.2]; exact m.get_setKey_self j (.branch b1) hsome
                rw [NestedMap.getFromIter_cons, NestedMap.getFromIter_cons,
                  hget1, hg, Option.some_bind, Option.some_bind,
                  Node.getPath_branch_cons, Node.getPath_branch_cons, ih]
            · rw [← hr.2, NestedMap.getFromIter_cons, NestedMap.getFromIter_cons,
                m.get_setKey_ne key j (.branch b1) hjk]

/-- C8: `remove_from_iter` on a path of length at least two removes only
the final segment's entry from its immediate parent map: the removed
node is what the path resolved to, the path no longer resolves
afterwards, every ancestor branch along the path is still present (even
when the removal left it empty), and every path that is neither a prefix
nor an extension of the removed one resolves exactly as before — no
pruning of empty ancestor branches happens at this layer. -/
theorem removeFrom_no_pruning (s : NestedMap) (p : List String) (n : Node)
    (s1 : NestedMap) (hw : s.wfb = true) (_hlen : 2 ≤ p.length)
    (hr : s.removeFromIter p = some (n, s1)) :
    s.getFromIter p = some n ∧
    s1.getFromIter p = none ∧
    (∀ j, 0 < j → j < p.length →
      ∃ b, s1.getFromIter (p.take j) = some (.branch b)) ∧
    (∀ q : List String, q.take p.length ≠ p → p.take q.length ≠ q →
      s1.getFromIter q = s.getFromIter q) :=
  ⟨getFrom_of_removeFrom p s n s1 hr,
   getFrom_none_after_removeFrom p s n s1 hw hr,
   fun j hj0 hjl => ancestors_branch_after_removeFrom p s n s1 hr j hj0 hjl,
   fun q hq1 hq2 => frame_after_removeFrom p s n s1 hr q hq1 hq2⟩

/-- Witness for C8: removing the path a, b from the store holding the
single chain a / b leaves the parent branch a in place, empty; the
removed path no longer resolves; an unrelated path x is untouched. -/
theorem removeFrom_no_pruning_witness :
    (NestedMap.cons "a" (.branch (.cons "b" (.leaf (.string "v")) .nil))
        .nil).getFromIter ["a", "b"] = some (.leaf (.string "v")) ∧
    (NestedMap.cons "a" (.branch .nil) .nil).getFromIter ["a", "b"] = none ∧
    (NestedMap.cons "a" (.branch .nil) .nil).getFromIter ["x"]
      = (NestedMap.cons "a" (.branch (.cons "b" (.leaf (.string "v")) .nil))
        .nil).getFromIter ["x"] := by
  have W := removeFrom_no_pruning
    (NestedMap.cons "a" (.branch (.cons "b" (.leaf (.string "v")) .nil)) .nil)
    ["a", "b"] (.leaf (.string "v")) (NestedMap.cons "a" (.branch .nil) .nil)
    rfl (by decide) rfl
  exact ⟨W.1, W.2.1, W.2.2.2 ["x"] (by decide) (by decide)⟩

/-- C4, divergence exhibited: on the store holding the single leaf a,
creating at the path a, b — whose intermediate (non-final) segment a
holds a leaf — does not conflict for `create` from src/src/ops.rs: its
`contains_path` check fails to resolve the path (a leaf cannot be
descended), so the operation returns `ok`, although the repository's own
test `create_conflict` in src/src/ops.rs asserts this very call errors,
and although `Store::create` from src/src/store.rs, whose `is_new_entry`
treats a leaf met before the final segment as a conflict, does fail with
`Conflict` on the same input. -/
theorem create_intermediate_leaf_divergence :
    (∃ s2, Ops.create (NestedMap.cons "a" (.leaf (.string "v")) .nil)
        ["a", "b"] (.leaf (.string "x")) = Except.ok s2) ∧
    Ops.storeCreate (NestedMap.cons "a" (.leaf (.string "v")) .nil)
        ["a", "b"] (.leaf (.string "x")) = Except.error .conflict ∧
    (NestedMap.cons "a" (.leaf (.string "v")) .nil).containsPathIter
        ["a", "b"] = false :=
  ⟨⟨NestedMap.cons "a" (.leaf (.string "v")) .nil, rfl⟩, rfl, rfl⟩

/-- C9: the flattened (untagged) deserializer tries the leaf value type
first and the nested map only on its failure: content that parses as a
leaf value is always decoded as a leaf, never as a branch; content that
does not parse as a leaf is decoded as a branch exactly when it parses as
a nested map; when both attempts fail the deserializer errors. -/
theorem flatten_deserialize_leaf_first (c : Content) :
    (∀ v, leafFromContent c = some v → nodeFromContent c = some (.leaf v)) ∧
    (∀ v m, leafFromContent c = some v → nodeFromContent c ≠ some (.branch m)) ∧
    (leafFromContent c = none →
      nodeFromContent c = (nestedFromContent c).map .branch) := by
  refine ⟨?_, ?_, ?_⟩
  · intro v hv
    simp [nodeFromContent, hv]
  · intro v m hv
    simp [nodeFromContent, hv]
  · intro hnone
    cases hn : nestedFromContent c <;> simp [nodeFromContent, hnone, hn]

/-- Witness for C9 at concrete content: the wire string s decodes as the
leaf entry s and is never a branch, and map content with no leaf parse
decodes as a branch. -/
theorem flatten_deserialize_leaf_first_witness :
    nodeFromContent (.str "s") = some (.leaf (.string "s")) ∧
    nodeFromContent (.str "s") ≠ some (.branch .nil) ∧
    nodeFromContent (.obj .nil) = some (.branch .nil) :=
  ⟨(flatten_deserialize_leaf_first (.str "s")).1 (.string "s") rfl,
   (flatten_deserialize_leaf_first (.str "s")).2.1 (.string "s") .nil rfl,
   ((flatten_deserialize_leaf_first (.obj .nil)).2.2 rfl).trans
     (by simp [nestedFromContent, mapFromFields])⟩

/-! Round-trip lemmas for the modelled serialization pipeline. -/

theorem decStr_encStr (s : String) (r : List Nat) :
    decStr (encStr s ++ r) = some (s, r) := by
  have hlen : (s.data.map Char.toNat).length = s.length := by
    rw [List.length_map]
    rfl
  have hmap : ∀ l : List Char, List.map Char.ofNat (List.map Char.toNat l) = l := by
    intro l
    induction l with
    | nil => rfl
    | cons c cs ih => simp [Char.ofNat_toNat, ih]
  simp only [encStr, List.cons_append, decStr]
  rw [if_pos (by rw [List.length_append, hlen]; omega),
    List.take_left' hlen, List.drop_left' hlen, hmap]

theorem decEntry_encEntry (e : Entry) (r : List Nat) :
    decEntry (encEntry e ++ r) = some (e, r) := by
  cases e with
  | string s =>
    simp only [encEntry, List.cons_append, decEntry]
    rw [decStr_encStr]
    rfl
  | binary b =>
    simp only [encEntry, List.cons_append, decEntry]
    rw [if_pos (by rw [List.length_append]; omega),
      List.take_left' rfl, List.drop_left' rfl]

mutual

theorem decNode_encNode : ∀ (n : Node) (fuel : Nat) (r : List Nat),
    sizeN n < fuel → decNode fuel (encNode n ++ r) = some (n, r)
  | _, 0, _, h => by omega
  | .leaf e, fuel + 1, r, _ => by
    simp only [encNode, List.cons_append, decNode]
    rw [decEntry_encEntry]
    rfl
  | .branch m, fuel + 1, r, h => by
    simp only [encNode, List.cons_append, decNode]
    rw [decEntries_encEntries m fuel r (by simp [sizeN] at h; omega)]
    rfl

theorem decEntries_encEntries : ∀ (m : NestedMap) (fuel : Nat) (r : List Nat),
    sizeL m < fuel → decEntries fuel (encEntries m ++ r) = some (m, r)
  | _, 0, _, h => by omega
  | .nil, fuel + 1, r, _ => by simp [encEntries, decEntries]
  | .cons k n rest, fuel + 1, r, h => by
    have hn : sizeN n < fuel := by simp [sizeL] at h; omega
    have hrest : sizeL rest < fuel := by simp [sizeL] at h; omega
    simp only [encEntries, List.cons_append, List.append_eq,
      List.append_assoc, decEntries]
    rw [decStr_encStr k]
    simp only [Option.some_bind]
    rw [decNode_encNode n fuel _ hn]
    simp only [Option.some_bind]
    rw [decEntries_encEntries rest fuel r hrest]
    rfl

end

mutual

theorem sizeN_le_length : ∀ n : Node, sizeN n ≤ (encNode n).length
  | .leaf e => by simp [sizeN, encNode]
  | .branch m => by
    have := sizeL_le_length m
    simp [sizeN, encNode]
    omega

theorem sizeL_le_length : ∀ m : NestedMap, sizeL m ≤ (encEntries m).length
  | .nil => by simp [sizeL, encEntries]
  | .cons k n rest => by
    have h1 := sizeN_le_length n
    have h2 := sizeL_le_length rest
    simp [sizeL, encEntries]
    omega

end

theorem deserialize_serialize (m : NestedMap) :
    deserialize (serialize m) = some m := by
  have hs : sizeL m < (encEntries m).length + 1 :=
    Nat.lt_succ_of_le (sizeL_le_length m)
  have hd := decEntries_encEntries m ((encEntries m).length + 1) [] hs
  rw [List.append_nil] at hd
  simp [deserialize, serialize, hd]

theorem aeadDecrypt_aeadEncrypt (key nonce pt : List Nat) :
    aeadDecrypt key nonce (aeadEncrypt key nonce pt) = some pt := by
  simp [aeadEncrypt, aeadDecrypt, List.getLast?_concat, List.dropLast_concat]

theorem decrypt_append_nonce (pass : String) (nonce body : List Nat)
    (h : nonce.length = 12) :
    Crypter.decrypt pass (nonce ++ body) = some (decryptTail pass nonce body) := by
  have hnl : ¬ (nonce ++ body).length < 12 := by
    simp [List.length_append, h]
  simp only [Crypter.decrypt]
  rw [if_neg hnl, List.take_left' h, List.drop_left' h]

/-- C1: the Crypter round-trips: for every store tree, every passphrase
(the empty one included) and every 12-byte nonce the RNG may produce,
decrypting the encryption of the tree under the same passphrase yields
exactly the original tree — encrypt serializes, compresses and
AEAD-encrypts with the nonce prepended, and decrypt reverses each
step. -/
theorem encrypt_decrypt_round_trip (t : NestedMap) (pass : String)
    (nonce : List Nat) (h : nonce.length = 12) :
    Crypter.decrypt pass (Crypter.encrypt pass nonce t)
      = some (.ok t) := by
  have h1 : decryptTail pass nonce
      (aeadEncrypt (deriveKey pass) nonce (deflate (serialize t))) = .ok t := by
    simp [decryptTail, aeadDecrypt_aeadEncrypt, inflate, deflate,
      deserialize_serialize]
  calc Crypter.decrypt pass (Crypter.encrypt pass nonce t)
      = Crypter.decrypt pass (nonce ++ aeadEncrypt (deriveKey pass) nonce
          (deflate (serialize t))) := rfl
    _ = some (decryptTail pass nonce (aeadEncrypt (deriveKey pass) nonce
          (deflate (serialize t)))) := decrypt_append_nonce _ _ _ h
    _ = some (.ok t) := by rw [h1]

/-- Witness for C1: a one-leaf tree round-trips through the Crypter under
the passphrase p and an all-zero 12-byte nonce, and so does the empty
tree under the empty passphrase. -/
theorem encrypt_decrypt_round_trip_witness :
    Crypter.decrypt "p" (Crypter.encrypt "p" [0, 0, 0, 0, 0, 0, 0, 0, 0, 0, 0, 0]
        (NestedMap.cons "k" (.leaf (.string "v")) .nil))
      = some (.ok (NestedMap.cons "k" (.leaf (.string "v")) .nil)) ∧
    Crypter.decrypt "" (Crypter.encrypt "" [0, 0, 0, 0, 0, 0, 0, 0, 0, 0, 0, 0]
        .nil) = some (.ok .nil) :=
  ⟨encrypt_decrypt_round_trip (NestedMap.cons "k" (.leaf (.string "v")) .nil)
      "p" [0, 0, 0, 0, 0, 0, 0, 0, 0, 0, 0, 0] rfl,
   encrypt_decrypt_round_trip .nil "" [0, 0, 0, 0, 0, 0, 0, 0, 0, 0, 0, 0] rfl⟩

/-- C10: `Crypter::decrypt` on any input shorter than 12 bytes panics
(the `payload[..12]` slice used to split off the nonce is out of bounds)
instead of returning a `CryptoError`; total, non-panicking behaviour
needs the input to be at least 12 bytes long. -/
theorem decrypt_short_input_panics (pass : String) (input : List Nat)
    (h : input.length < 12) : Crypter.decrypt pass input = none := by
  simp [Crypter.decrypt, h]

/-- Witness for C10: decrypting the empty input and an 11-byte input
panics (no error value is produced). -/
theorem decrypt_short_input_panics_witness :
    Crypter.decrypt "p" [] = none ∧
    Crypter.decrypt "p" [0, 1, 2, 3, 4, 5, 6, 7, 8, 9, 10] = none :=
  ⟨decrypt_short_input_panics "p" [] (by decide),
   decrypt_short_input_panics "p" [0, 1, 2, 3, 4, 5, 6, 7, 8, 9, 10]
     (by decide)⟩

/-- C6: in the random-nonce Crypter, encrypt returns the freshly
generated 12-byte nonce prepended to the AEAD ciphertext of the
compressed serialization, and decrypt takes exactly the first 12 bytes of
its input as the nonce and runs the remaining bytes through
AEAD-decryption, decompression and deserialization. -/
theorem encrypt_prepends_nonce_decrypt_splits (pass : String)
    (nonce body : List Nat) (t : NestedMap) (h : nonce.length = 12) :
    Crypter.encrypt pass nonce t
      = nonce ++ aeadEncrypt (deriveKey pass) nonce (deflate (serialize t)) ∧
    Crypter.decrypt pass (nonce ++ body)
      = some (decryptTail pass nonce body) :=
  ⟨rfl, decrypt_append_nonce pass nonce body h⟩

/-- Witness for C6 at a concrete nonce, body and tree. -/
theorem encrypt_prepends_nonce_decrypt_splits_witness :
    Crypter.encrypt "p" [0, 0, 0, 0, 0, 0, 0, 0, 0, 0, 0, 0] .nil
      = [0, 0, 0, 0, 0, 0, 0, 0, 0, 0, 0, 0]
        ++ aeadEncrypt (deriveKey "p") [0, 0, 0, 0, 0, 0, 0, 0, 0, 0, 0, 0]
          (deflate (serialize .nil)) ∧
    Crypter.decrypt "p" ([0, 0, 0, 0, 0, 0, 0, 0, 0, 0, 0, 0] ++ [1, 2])
      = some (decryptTail "p" [0, 0, 0, 0, 0, 0, 0, 0, 0, 0, 0, 0] [1, 2]) :=
  encrypt_prepends_nonce_decrypt_splits "p"
    [0, 0, 0, 0, 0, 0, 0, 0, 0, 0, 0, 0] [1, 2] .nil rfl

/-! Lemmas for tamper detection. -/

theorem sum_set_add : ∀ (l : List Nat) (i b : Nat), i < l.length →
    (l.set i b).sum + l.getD i 0 = l.sum + b
  | [], i, b, h => by simp at h
  | x :: xs, 0, b, _ => by
    simp only [List.set, List.sum_cons, List.getD_cons_zero]
    omega
  | x :: xs, i + 1, b, h => by
    have ih := sum_set_add xs i b (by simpa using h)
    simp only [List.set, List.sum_cons, List.getD_cons_succ]
    omega

theorem aead_tamper (key nonce body : List Nat) (j b' : Nat)
    (hj : j < body.length + 1)
    (hb : b' ≠ (body ++ [macSum key nonce body]).getD j 0) :
    aeadDecrypt key nonce ((body ++ [macSum key nonce body]).set j b')
      = none := by
  by_cases hjl : j < body.length
  · rw [List.set_append_left j b' hjl]
    rw [List.getD_append _ _ 0 j hjl] at hb
    simp only [aeadDecrypt, List.getLast?_concat, List.dropLast_concat]
    rw [if_neg]
    intro heq
    have hsum := sum_set_add body j b' hjl
    simp [macSum] at heq
    omega
  · have hje : j = body.length := by omega
    subst hje
    rw [List.set_append_right body.length b' (le_refl body.length)]
    rw [List.getD_append_right _ _ 0 _ (le_refl body.length)] at hb
    simp only [Nat.sub_self, List.set] at hb ⊢
    simp only [List.getD_cons_zero] at hb
    simp only [aeadDecrypt, List.getLast?_concat, List.dropLast_concat]
    rw [if_neg]
    exact hb

theorem nonce_tamper (key nonce body : List Nat) (i b' : Nat)
    (hi : i < nonce.length) (hb : b' ≠ nonce.getD i 0) :
    aeadDecrypt key (nonce.set i b') (body ++ [macSum key nonce body])
      = none := by
  simp only [aeadDecrypt, List.getLast?_concat, List.dropLast_concat]
  rw [if_neg]
  intro heq
  have hsum := sum_set_add nonce i b' hi
  simp [macSum] at heq
  omega

/-- C2: tamper detection: replacing any single byte of the Crypter's
output by a different value makes decrypt fail with the Crypto
(authentication) error — it never succeeds and never returns a different
tree.  The modelled AEAD authenticates perfectly, which is the contract
the source relies on. -/
theorem tamper_detection (t : NestedMap) (pass : String) (nonce : List Nat)
    (h : nonce.length = 12) (i b' : Nat)
    (hi : i < (Crypter.encrypt pass nonce t).length)
    (hb : b' ≠ (Crypter.encrypt pass nonce t).getD i 0) :
    Crypter.decrypt pass ((Crypter.encrypt pass nonce t).set i b')
      = some (.error .crypto) := by
  have henc : Crypter.encrypt pass nonce t
      = nonce ++ (deflate (serialize t)
          ++ [macSum (deriveKey pass) nonce (deflate (serialize t))]) := rfl
  rw [henc] at hi hb ⊢
  by_cases hiN : i < 12
  · have hi12 : i < nonce.length := by omega
    rw [List.set_append_left i b' hi12]
    have hlen' : (nonce.set i b').length = 12 := by
      rw [List.length_set]; exact h
    rw [decrypt_append_nonce pass _ _ hlen']
    rw [List.getD_append _ _ 0 i hi12] at hb
    have ht := nonce_tamper (deriveKey pass) nonce (deflate (serialize t))
      i b' hi12 hb
    simp [decryptTail, ht]
  · have hge : nonce.length ≤ i := by omega
    rw [List.set_append_right i b' hge]
    rw [decrypt_append_nonce pass _ _ h]
    rw [List.getD_append_right _ _ 0 i hge] at hb
    have hj : i - nonce.length < (deflate (serialize t)).length + 1 := by
      rw [List.length_append, List.length_append] at hi
      simp at hi
      omega
    have ht := aead_tamper (deriveKey pass) nonce (deflate (serialize t))
      (i - nonce.length) b' hj hb
    simp [decryptTail, ht]

/-- Witness for C2: flipping the first byte of a concrete encryption
(a nonce byte, 0 replaced by 1) makes decrypt fail with the Crypto
error. -/
theorem tamper_detection_witness :
    Crypter.decrypt "p" ((Crypter.encrypt "p"
        [0, 0, 0, 0, 0, 0, 0, 0, 0, 0, 0, 0] .nil).set 0 1)
      = some (.error .crypto) :=
  tamper_detection .nil "p" [0, 0, 0, 0, 0, 0, 0, 0, 0, 0, 0, 0] rfl 0 1
    (by decide) (by decide)
